import Mathlib

/-!
Verification development for the copiar contribution mirror
(src/copiar.py).  The Python source is shallowly embedded: calendar
days are rata-die integers (Python date objects with timedelta
arithmetic), contribution maps are insertion-ordered association
lists with unique keys (Python dicts), git commits carry an author
and a committer timestamp, and the effectful main routine is modelled
as a function from its inputs to a record of the observable effects.
-/

namespace Copiar

/-- ContributionMap from the source: a Python dict from day to count,
modelled as an insertion-ordered association list with unique keys.
Calendar days are Int values counting days from a fixed epoch; Python
date arithmetic (date + timedelta(days = n)) is integer addition. -/
abbrev ContributionMap := List (Int × Nat)

/-- Dict lookup: first (and, with unique keys, only) binding of a day. -/
def lookupD : ContributionMap → Int → Option Nat
  | [], _ => none
  | p :: ps, d => if p.1 = d then some p.2 else lookupD ps d

/-- Python dict.get(day, 0), as used at src/copiar.py lines 593-595. -/
def getD (m : ContributionMap) (d : Int) : Nat :=
  (lookupD m d).getD 0

/-- Keys of a contribution map, in insertion order. -/
def keysOf (m : ContributionMap) : List Int :=
  m.map Prod.fst

/-- Python dict assignment counts[day] = v: update the binding in place
if the key is present, otherwise append it. -/
def setK : ContributionMap → Int → Nat → ContributionMap
  | [], d, v => [(d, v)]
  | p :: ps, d, v => if p.1 = d then (d, v) :: ps else p :: setK ps d v

/-- Occurrences of a day in a list of days. -/
def countD (x : Int) : List Int → Nat
  | [] => 0
  | d :: ds => (if d = x then 1 else 0) + countD x ds

/-- Proleptic Gregorian day number of a civil date (year ≥ 1), the
standard era-based conversion; embeds Python datetime.date values such
as date(2023, 1, 1) as day numbers. -/
def daysFromCivil (y m d : Nat) : Int :=
  let y' := y - (if m ≤ 2 then 1 else 0)
  let era := y' / 400
  let yoe := y' - era * 400
  let mp := (m + 9) % 12
  let doy := (153 * mp + 2) / 5 + (d - 1)
  let doe := yoe * 365 + yoe / 4 - yoe / 100 + doy
  ((era * 146097 + doe : Nat) : Int)

/-- Loop body of fetch_contributions (src/copiar.py lines 382-387):
starting from chunk_start = s, emit the window
(chunk_start, min e (chunk_start + 364)) and continue from the day
after the window's end, while chunk_start ≤ e.  The loop advances
chunk_start by at least one day per iteration, so it performs at most
(e + 1 - s) iterations; the fuel argument is bounded below by that
count wherever the definition is used (see chunksGo_congr). -/
def chunksGo : Nat → Int → Int → List (Int × Int)
  | 0, _, _ => []
  | fuel + 1, s, e =>
    if s ≤ e then (s, min e (s + 364)) :: chunksGo fuel (min e (s + 364) + 1) e
    else []

/-- Windows queried by fetch_contributions for the range [s, e]. -/
def chunks (s e : Int) : List (Int × Int) :=
  chunksGo (e + 1 - s).toNat s e

/-- Each window after the first begins the day after the previous
window ends. -/
def consecutiveChunks : List (Int × Int) → Prop
  | c :: c' :: rest => c'.1 = c.2 + 1 ∧ consecutiveChunks (c' :: rest)
  | _ => True

/-- Number of windows in the list that contain the day d. -/
def countWindows (d : Int) : List (Int × Int) → Nat
  | [] => 0
  | c :: cs => (if c.1 ≤ d ∧ d ≤ c.2 then 1 else 0) + countWindows d cs

/-- Python dict.update: merge the second map into the first. -/
def updateMap (m chunk : ContributionMap) : ContributionMap :=
  chunk.foldl (fun acc p => setK acc p.1 p.2) m

/-- fetch_contributions (src/copiar.py lines 374-388): one upstream
query per window, merged left to right into an initially empty map.
The query oracle stands for _fetch_contributions_chunk. -/
def fetchContributions (query : Int → Int → ContributionMap) (s e : Int) :
    ContributionMap :=
  (chunks s e).foldl (fun m c => updateMap m (query c.1 c.2)) []

/-- Git timestamp: seconds since the UTC epoch plus the recorded
UTC-offset in minutes. -/
structure GitDate where
  utcSeconds : Int
  offsetMinutes : Int
deriving DecidableEq

/-- Day extraction used by git log --date=format:%Y-%m-%d: the calendar
day of the timestamp rendered in the commit's own recorded offset. -/
def formatDay (t : GitDate) : Int :=
  (t.utcSeconds + t.offsetMinutes * 60).fdiv 86400

/-- Commit as the embedding needs it: an author timestamp and a
committer timestamp. -/
structure Commit where
  authorDate : GitDate
  committerDate : GitDate
deriving DecidableEq

/-- Timestamp dayT12:00:00+00:00 written by create_commits_for_day
(src/copiar.py line 115). -/
def noonUTC (d : Int) : GitDate :=
  ⟨d * 86400 + 43200, 0⟩

/-- Commit produced by the emitter for a day: GIT_AUTHOR_DATE and
GIT_COMMITTER_DATE are both set to noon UTC of that day
(src/copiar.py lines 116-119). -/
def mkCommit (d : Int) : Commit :=
  ⟨noonUTC d, noonUTC d⟩

/-- create_commits_for_day (src/copiar.py lines 113-130): count empty
commits backdated to noon UTC of the day. -/
def createCommitsForDay (d : Int) (count : Nat) : List Commit :=
  List.replicate count (mkCommit d)

/-- Day buckets of a commit list under git log --format=%ad
--date=format:%Y-%m-%d (src/copiar.py line 102): the AUTHOR date of
each commit, formatted as a calendar day. -/
def bucketDays (cs : List Commit) : List Int :=
  cs.map fun c => formatDay c.authorDate

/-- Tally loop of load_existing_commits (src/copiar.py lines 105-109):
counts[day] = counts.get(day, 0) + 1 over the log lines in order. -/
def tallyInto : ContributionMap → List Int → ContributionMap
  | m, [] => m
  | m, d :: ds => tallyInto (setK m d (getD m d + 1)) ds

/-- load_existing_commits (src/copiar.py lines 88-110): per-day counts
of the working copy's commits, bucketed by formatted author date.  A
working copy with no commits yields the empty map both through the
early HEAD-missing return and through an empty log. -/
def loadExistingCommits (cs : List Commit) : ContributionMap :=
  tallyInto [] (bucketDays cs)

/-- Modelled from the spec for comparison with loadExistingCommits:
the specification's description of the existing-counts loader, which
says commits are tallied by the COMMITTER date normalized to a
calendar day. -/
def loadExistingByCommitter (cs : List Commit) : ContributionMap :=
  tallyInto [] (cs.map fun c => formatDay c.committerDate)

/-- Delta computation of main (src/copiar.py lines 592-596): for each
target pair keep the day with value target - existing.get(day, 0) when
that integer difference is positive. -/
def computeDelta (target existing : ContributionMap) : ContributionMap :=
  target.filterMap fun p =>
    if 0 < (p.2 : Int) - (getD existing p.1 : Int)
    then some (p.1, ((p.2 : Int) - (getD existing p.1 : Int)).toNat) else none

/-- Insertion step of the sort used to model Python sorted(). -/
def insertSorted (x : Int) : List Int → List Int
  | [] => [x]
  | y :: ys => if x ≤ y then x :: y :: ys else y :: insertSorted x ys

/-- Python sorted() over a list of days (ascending). -/
def sortKeys : List Int → List Int
  | [] => []
  | x :: xs => insertSorted x (sortKeys xs)

/-- Emission loop of main (src/copiar.py lines 617-621): for each day
in the given order, create the needed commits for that day. -/
def emitDays : List Int → ContributionMap → List Commit
  | [], _ => []
  | k :: ks, needed => createCommitsForDay k (getD needed k) ++ emitDays ks needed

/-- Commits appended by one run for a computed delta: days processed in
ascending order, needed[day] commits each. -/
def emitAll (needed : ContributionMap) : List Commit :=
  emitDays (sortKeys (keysOf needed)) needed

/-- Python sum(m.values()). -/
def sumValues (m : ContributionMap) : Nat :=
  (m.map Prod.snd).sum

/-- Dry-run listing of main (src/copiar.py lines 558-560): each day of
the target map in ascending order with its target count. -/
def dryRunListing (target : ContributionMap) : List (Int × Nat) :=
  (sortKeys (keysOf target)).map fun d => (d, getD target d)

/-- Response of the commit-listing endpoint as _repo_has_remote_commits
observes it: 409 (empty repository), 404 (not found), a successful
listing with its commits, or another HTTP error status. -/
inductive CommitsApiResponse where
  | conflictEmpty : CommitsApiResponse
  | notFound : CommitsApiResponse
  | listing : List Unit → CommitsApiResponse
  | httpError : Nat → CommitsApiResponse
deriving DecidableEq

/-- _repo_has_remote_commits (src/copiar.py lines 200-220): 409 and 404
mean no history; any other error status aborts via raise_for_status;
otherwise history exists iff the returned commit list is non-empty. -/
def repoHasRemoteCommits : CommitsApiResponse → Except Nat Bool
  | .conflictEmpty => .ok false
  | .notFound => .ok false
  | .httpError code => .error code
  | .listing cs => .ok (!cs.isEmpty)

/-- Has-history determination before the clone-vs-init decision
(src/copiar.py lines 254-256): the metadata heuristic short-circuits a
Python or, otherwise the authoritative commit-listing check decides.
Returns the flag together with whether the authoritative endpoint was
queried. -/
def resolveHasHistory (heuristic : Bool) (resp : CommitsApiResponse) :
    Except Nat (Bool × Bool) :=
  if heuristic then .ok (true, false)
  else (repoHasRemoteCommits resp).map fun b => (b, true)

/-- Modelled from the spec: the commit-listing check described in the
specification, with a conflict status (repository is empty) or a
not-found status treated as no history, and a successful listing
meaning history iff it is non-empty. -/
def specCommitListingHasHistory : CommitsApiResponse → Bool
  | .conflictEmpty => false
  | .notFound => false
  | .httpError _ => false
  | .listing cs => !cs.isEmpty

/-- Observable effects of one invocation of main from the fetch
onwards (src/copiar.py lines 536-625). -/
structure RunEffects where
  fetched : Bool
  repoChecked : Bool
  workingCopyPrepared : Bool
  commitsCreated : Nat
  pushed : Bool
  localCommits : List Commit
  remoteCommits : List Commit
  dryRunOutput : List (Int × Nat)
deriving DecidableEq

/-- Control flow of main after configuration (src/copiar.py lines
536-625), as a function of the fetched target map, the prepared
working copy's commits and the remote's commits.  In order: empty
fetch returns before any repository operation (line 547); dry-run
prints the sorted target map and returns before any repository
operation (line 556); otherwise the destination repository is ensured
and a working copy prepared, the delta is computed, an empty delta
returns without commits or push (line 598), a declined confirmation
aborts (line 612), and otherwise the delta is emitted and pushed. -/
def runMain (dryRun yes confirmed : Bool) (target : ContributionMap)
    (localInit remoteInit : List Commit) : RunEffects :=
  if target.isEmpty then
    ⟨true, false, false, 0, false, localInit, remoteInit, []⟩
  else if dryRun then
    ⟨true, false, false, 0, false, localInit, remoteInit, dryRunListing target⟩
  else
    let needed := computeDelta target (loadExistingCommits localInit)
    if needed.isEmpty then
      ⟨true, true, true, 0, false, localInit, remoteInit, []⟩
    else if !yes && !confirmed then
      ⟨true, true, true, 0, false, localInit, remoteInit, []⟩
    else
      let finalLocal := localInit ++ emitAll needed
      ⟨true, true, true, sumValues needed, true, finalLocal, finalLocal, []⟩

/-! Helper lemmas about the dictionary operations. -/

theorem getD_nil (d : Int) : getD [] d = 0 := rfl

theorem getD_cons (p : Int × Nat) (ps : ContributionMap) (d : Int) :
    getD (p :: ps) d = if p.1 = d then p.2 else getD ps d := by
  by_cases h : p.1 = d <;> simp [getD, lookupD, h]

theorem getD_setK_self (m : ContributionMap) (d : Int) (v : Nat) :
    getD (setK m d v) d = v := by
  induction m with
  | nil => simp [setK, getD_cons]
  | cons p ps ih =>
    by_cases h : p.1 = d
    · simp [setK, h, getD_cons]
    · simp [setK, h, getD_cons, ih]

theorem getD_setK_ne (m : ContributionMap) (d : Int) (v : Nat) (x : Int)
    (h : x ≠ d) : getD (setK m d v) x = getD m x := by
  have hdx : d ≠ x := fun hc => h hc.symm
  induction m with
  | nil => simp [setK, getD_cons, getD_nil, hdx]
  | cons p ps ih =>
    by_cases hp : p.1 = d
    · subst hp
      simp [setK, getD_cons, hdx]
    · simp [setK, hp, getD_cons, ih]

theorem countD_nil (x : Int) : countD x [] = 0 := rfl

theorem countD_cons (x d : Int) (ds : List Int) :
    countD x (d :: ds) = (if d = x then 1 else 0) + countD x ds := rfl

theorem countD_append (x : Int) (l l' : List Int) :
    countD x (l ++ l') = countD x l + countD x l' := by
  induction l with
  | nil => simp [countD]
  | cons d ds ih => simp [countD_cons, ih]; omega

theorem countD_replicate (x d : Int) (n : Nat) :
    countD x (List.replicate n d) = if d = x then n else 0 := by
  induction n with
  | zero => simp [countD]
  | succ n ih =>
    rw [List.replicate_succ]
    rw [countD_cons, ih]
    split <;> omega

theorem getD_tallyInto (ds : List Int) :
    ∀ (m : ContributionMap) (x : Int),
      getD (tallyInto m ds) x = getD m x + countD x ds := by
  induction ds with
  | nil => intro m x; simp [tallyInto, countD]
  | cons d ds ih =>
    intro m x
    rw [tallyInto, ih, countD_cons]
    by_cases h : d = x
    · subst h; rw [getD_setK_self, if_pos rfl]; omega
    · rw [getD_setK_ne _ _ _ _ fun hc => h hc.symm, if_neg h]; omega

theorem getD_loadExistingCommits (cs : List Commit) (x : Int) :
    getD (loadExistingCommits cs) x = countD x (bucketDays cs) := by
  rw [loadExistingCommits, getD_tallyInto, getD_nil, Nat.zero_add]

theorem mem_keysOf_iff (m : ContributionMap) (x : Int) :
    x ∈ keysOf m ↔ (lookupD m x).isSome := by
  induction m with
  | nil => simp [keysOf, lookupD]
  | cons p ps ih =>
    have hcons : keysOf (p :: ps) = p.1 :: keysOf ps := rfl
    rw [hcons, List.mem_cons, lookupD]
    by_cases h : p.1 = x
    · simp [h]
    · have hx : x ≠ p.1 := fun hc => h hc.symm
      rw [if_neg h]
      simp only [hx, false_or]
      exact ih

theorem getD_of_not_mem (m : ContributionMap) (x : Int) (h : x ∉ keysOf m) :
    getD m x = 0 := by
  rw [mem_keysOf_iff] at h
  rw [getD]
  cases hl : lookupD m x with
  | none => rfl
  | some v => rw [hl] at h; simp at h

theorem mem_keysOf_of_getD_pos (m : ContributionMap) (x : Int)
    (h : 0 < getD m x) : x ∈ keysOf m := by
  by_contra hc
  rw [getD_of_not_mem m x hc] at h
  omega

theorem getD_of_mem_nodup (m : ContributionMap) (d : Int) (v : Nat)
    (hnd : (keysOf m).Nodup) (hmem : (d, v) ∈ m) : getD m d = v := by
  induction m with
  | nil => simp at hmem
  | cons p ps ih =>
    rw [keysOf, List.map_cons, List.nodup_cons] at hnd
    rcases List.mem_cons.mp hmem with h | h
    · subst h; simp [getD_cons]
    · rw [getD_cons]
      have hd : d ∈ keysOf ps := List.mem_map_of_mem Prod.fst h
      have : p.1 ≠ d := fun he => hnd.1 (he ▸ hd)
      rw [if_neg this]
      exact ih hnd.2 h

theorem computeDelta_cons_pos (p : Int × Nat) (ps existing : ContributionMap)
    (hd : 0 < (p.2 : Int) - (getD existing p.1 : Int)) :
    computeDelta (p :: ps) existing
      = (p.1, ((p.2 : Int) - (getD existing p.1 : Int)).toNat)
        :: computeDelta ps existing := by
  have hd' : getD existing p.1 < p.2 := by omega
  simp [computeDelta, List.filterMap_cons, hd']

theorem computeDelta_cons_neg (p : Int × Nat) (ps existing : ContributionMap)
    (hd : ¬ 0 < (p.2 : Int) - (getD existing p.1 : Int)) :
    computeDelta (p :: ps) existing = computeDelta ps existing := by
  have hd' : ¬ getD existing p.1 < p.2 := by omega
  simp [computeDelta, List.filterMap_cons, hd']

theorem lookupD_computeDelta (target existing : ContributionMap)
    (h : (keysOf target).Nodup) (x : Int) :
    lookupD (computeDelta target existing) x =
      if (getD existing x : Int) < (getD target x : Int)
      then some (getD target x - getD existing x) else none := by
  induction target with
  | nil =>
    have hc : ¬ ((getD existing x : Int) < (getD ([] : ContributionMap) x : Int)) := by
      rw [getD_nil]
      omega
    simp [computeDelta, lookupD, hc]
  | cons p ps ih =>
    have hcons : keysOf (p :: ps) = p.1 :: keysOf ps := rfl
    rw [hcons, List.nodup_cons] at h
    obtain ⟨hnotin, hnd⟩ := h
    by_cases hd : 0 < (p.2 : Int) - (getD existing p.1 : Int)
    · rw [computeDelta_cons_pos p ps existing hd, lookupD]
      by_cases hx : p.1 = x
      · subst hx
        rw [if_pos rfl, getD_cons, if_pos rfl]
        have hlt : (getD existing p.1 : Int) < (p.2 : Int) := by omega
        rw [if_pos hlt]
        have hnat : ((p.2 : Int) - (getD existing p.1 : Int)).toNat
            = p.2 - getD existing p.1 := by omega
        rw [hnat]
      · rw [if_neg hx, getD_cons, if_neg hx]
        exact ih hnd
    · rw [computeDelta_cons_neg p ps existing hd]
      by_cases hx : p.1 = x
      · subst hx
        rw [getD_cons, if_pos rfl]
        have hge : ¬ ((getD existing p.1 : Int) < (p.2 : Int)) := by omega
        rw [if_neg hge]
        have hz : getD ps p.1 = 0 := getD_of_not_mem ps p.1 hnotin
        rw [ih hnd, hz]
        have hzc : ¬ ((getD existing p.1 : Int) < ((0 : Nat) : Int)) := by omega
        rw [if_neg hzc]
      · rw [getD_cons, if_neg hx]
        exact ih hnd

theorem getD_computeDelta (target existing : ContributionMap)
    (h : (keysOf target).Nodup) (x : Int) :
    getD (computeDelta target existing) x =
      if (getD existing x : Int) < (getD target x : Int)
      then getD target x - getD existing x else 0 := by
  rw [getD, lookupD_computeDelta target existing h x]
  split <;> rfl

theorem mem_keys_computeDelta (target existing : ContributionMap)
    (h : (keysOf target).Nodup) (x : Int) :
    x ∈ keysOf (computeDelta target existing) ↔
      (getD existing x : Int) < (getD target x : Int) := by
  rw [mem_keysOf_iff, lookupD_computeDelta target existing h x]
  by_cases hc : (getD existing x : Int) < (getD target x : Int)
  · simp [hc]
  · simp [hc]

theorem mem_keys_computeDelta_mem_target (target existing : ContributionMap)
    (x : Int) (hx : x ∈ keysOf (computeDelta target existing)) :
    x ∈ keysOf target := by
  induction target with
  | nil => simpa [computeDelta] using hx
  | cons p ps ih =>
    have hcons : keysOf (p :: ps) = p.1 :: keysOf ps := rfl
    rw [hcons, List.mem_cons]
    by_cases hd : 0 < (p.2 : Int) - (getD existing p.1 : Int)
    · rw [computeDelta_cons_pos p ps existing hd] at hx
      have hcons2 : keysOf ((p.1, ((p.2 : Int) - (getD existing p.1 : Int)).toNat)
          :: computeDelta ps existing)
          = p.1 :: keysOf (computeDelta ps existing) := rfl
      rw [hcons2, List.mem_cons] at hx
      rcases hx with hx | hx
      · exact Or.inl hx
      · exact Or.inr (ih hx)
    · rw [computeDelta_cons_neg p ps existing hd] at hx
      exact Or.inr (ih hx)

theorem nodup_keys_computeDelta (target existing : ContributionMap)
    (h : (keysOf target).Nodup) :
    (keysOf (computeDelta target existing)).Nodup := by
  induction target with
  | nil => simp [computeDelta, keysOf]
  | cons p ps ih =>
    have hcons : keysOf (p :: ps) = p.1 :: keysOf ps := rfl
    rw [hcons, List.nodup_cons] at h
    obtain ⟨hnotin, hnd⟩ := h
    by_cases hd : 0 < (p.2 : Int) - (getD existing p.1 : Int)
    · rw [computeDelta_cons_pos p ps existing hd]
      have hcons2 : keysOf ((p.1, ((p.2 : Int) - (getD existing p.1 : Int)).toNat)
          :: computeDelta ps existing)
          = p.1 :: keysOf (computeDelta ps existing) := rfl
      rw [hcons2, List.nodup_cons]
      refine ⟨fun hc => hnotin ?_, ih hnd⟩
      exact mem_keys_computeDelta_mem_target ps existing p.1 hc
    · rw [computeDelta_cons_neg p ps existing hd]
      exact ih hnd

theorem formatDay_noonUTC (d : Int) : formatDay (noonUTC d) = d := by
  show (d * 86400 + 43200 + 0 * 60).fdiv 86400 = d
  have h1 : d * 86400 + 43200 + 0 * 60 = 43200 + 86400 * d := by ring
  rw [h1, Int.fdiv_eq_ediv _ (by norm_num), Int.add_mul_ediv_left _ d (by norm_num)]
  norm_num

theorem countD_insertSorted (x y : Int) (l : List Int) :
    countD x (insertSorted y l) = (if y = x then 1 else 0) + countD x l := by
  induction l with
  | nil => simp [insertSorted, countD_cons, countD_nil]
  | cons z zs ih =>
    rw [insertSorted]
    by_cases h : y ≤ z
    · rw [if_pos h, countD_cons, countD_cons]
    · rw [if_neg h, countD_cons, ih, countD_cons]
      omega

theorem countD_sortKeys (x : Int) (l : List Int) :
    countD x (sortKeys l) = countD x l := by
  induction l with
  | nil => rfl
  | cons d ds ih => rw [sortKeys, countD_insertSorted, ih, countD_cons]

theorem countD_eq_zero_of_not_mem (x : Int) (l : List Int) (h : x ∉ l) :
    countD x l = 0 := by
  induction l with
  | nil => rfl
  | cons d ds ih =>
    rw [List.mem_cons] at h
    push_neg at h
    rw [countD_cons, ih h.2, if_neg fun hc => h.1 hc.symm]

theorem countD_eq_one_of_nodup_mem (l : List Int) (h : l.Nodup) (x : Int)
    (hx : x ∈ l) : countD x l = 1 := by
  induction l with
  | nil => simp at hx
  | cons d ds ih =>
    rw [List.nodup_cons] at h
    obtain ⟨hnotin, hnd⟩ := h
    rw [countD_cons]
    rcases List.mem_cons.mp hx with hc | hc
    · subst hc
      rw [if_pos rfl, countD_eq_zero_of_not_mem x ds hnotin]
    · have hne : d ≠ x := fun he => hnotin (he ▸ hc)
      rw [if_neg hne, ih hnd hc]

theorem bucketDays_append (cs ds : List Commit) :
    bucketDays (cs ++ ds) = bucketDays cs ++ bucketDays ds := by
  rw [bucketDays, List.map_append]
  rfl

theorem bucketDays_createCommitsForDay (d : Int) (n : Nat) :
    bucketDays (createCommitsForDay d n) = List.replicate n d := by
  rw [bucketDays, createCommitsForDay, List.map_replicate]
  have ha : (mkCommit d).authorDate = noonUTC d := rfl
  rw [ha, formatDay_noonUTC]

theorem countD_bucketDays_emitDays (needed : ContributionMap) (x : Int) :
    ∀ ks : List Int,
      countD x (bucketDays (emitDays ks needed)) = countD x ks * getD needed x := by
  intro ks
  induction ks with
  | nil => simp [emitDays, bucketDays, countD_nil]
  | cons k ks ih =>
    rw [emitDays, bucketDays_append, countD_append, ih,
      bucketDays_createCommitsForDay, countD_replicate, countD_cons]
    by_cases h : k = x
    · subst h
      rw [if_pos rfl, if_pos rfl]
      ring
    · rw [if_neg h, if_neg h]
      ring

theorem getD_loadExisting_append_emitAll (cs : List Commit)
    (needed : ContributionMap) (h : (keysOf needed).Nodup) (x : Int) :
    getD (loadExistingCommits (cs ++ emitAll needed)) x
      = getD (loadExistingCommits cs) x + getD needed x := by
  rw [getD_loadExistingCommits, bucketDays_append, countD_append,
    ← getD_loadExistingCommits, emitAll, countD_bucketDays_emitDays,
    countD_sortKeys]
  by_cases hx : x ∈ keysOf needed
  · rw [countD_eq_one_of_nodup_mem (keysOf needed) h x hx, Nat.one_mul]
  · rw [countD_eq_zero_of_not_mem x (keysOf needed) hx, Nat.zero_mul,
      getD_of_not_mem needed x hx]

/-! Helper lemmas about the window computation. -/

theorem chunksGo_zero (s e : Int) : chunksGo 0 s e = [] := rfl

theorem chunksGo_succ (f : Nat) (s e : Int) :
    chunksGo (f + 1) s e
      = if s ≤ e then (s, min e (s + 364)) :: chunksGo f (min e (s + 364) + 1) e
        else [] := rfl

theorem chunksGo_nil (fuel : Nat) (s e : Int) (h : e < s) :
    chunksGo fuel s e = [] := by
  cases fuel with
  | zero => rfl
  | succ f => rw [chunksGo_succ, if_neg (by omega)]

theorem consecutiveChunks_cons (c c' : Int × Int) (rest : List (Int × Int)) :
    consecutiveChunks (c :: c' :: rest)
      ↔ (c'.1 = c.2 + 1 ∧ consecutiveChunks (c' :: rest)) := Iff.rfl

theorem countWindows_cons (d : Int) (c : Int × Int) (cs : List (Int × Int)) :
    countWindows d (c :: cs)
      = (if c.1 ≤ d ∧ d ≤ c.2 then 1 else 0) + countWindows d cs := rfl

theorem chunksGo_congr (f1 : Nat) :
    ∀ (f2 : Nat) (s e : Int), (e + 1 - s).toNat ≤ f1 → (e + 1 - s).toNat ≤ f2 →
      chunksGo f1 s e = chunksGo f2 s e := by
  induction f1 with
  | zero =>
    intro f2 s e h1 h2
    have he : e < s := by omega
    rw [chunksGo_zero, chunksGo_nil f2 s e he]
  | succ f ih =>
    intro f2 s e h1 h2
    by_cases hse : s ≤ e
    · cases f2 with
      | zero => exfalso; omega
      | succ g =>
        rw [chunksGo_succ, chunksGo_succ, if_pos hse, if_pos hse]
        congr 1
        exact ih g (min e (s + 364) + 1) e (by omega) (by omega)
    · rw [chunksGo_nil (f + 1) s e (by omega), chunksGo_nil f2 s e (by omega)]

theorem chunksGo_spec (fuel : Nat) :
    ∀ s e : Int, s ≤ e → (e + 1 - s).toNat ≤ fuel →
      (∀ c ∈ chunksGo fuel s e, s ≤ c.1 ∧ c.1 ≤ c.2 ∧ c.2 ≤ c.1 + 364) ∧
      (∃ rest, chunksGo fuel s e = (s, min e (s + 364)) :: rest) ∧
      consecutiveChunks (chunksGo fuel s e) ∧
      (∀ d : Int, countWindows d (chunksGo fuel s e)
        = if s ≤ d ∧ d ≤ e then 1 else 0) := by
  induction fuel with
  | zero =>
    intro s e h hf
    exfalso
    omega
  | succ f ih =>
    intro s e h hf
    rw [chunksGo_succ, if_pos h]
    by_cases hm : min e (s + 364) = e
    · have htail : chunksGo f (min e (s + 364) + 1) e = [] :=
        chunksGo_nil f _ e (by omega)
      rw [htail]
      refine ⟨?_, ⟨[], rfl⟩, trivial, ?_⟩
      · intro c hc
        rcases List.mem_singleton.mp hc with hc
        subst hc
        constructor
        · exact le_refl s
        constructor
        · show s ≤ min e (s + 364)
          omega
        · show min e (s + 364) ≤ s + 364
          omega
      · intro d
        rw [countWindows_cons]
        have hz : countWindows d ([] : List (Int × Int)) = 0 := rfl
        rw [hz]
        split_ifs with h1 h2 h2 <;> simp at h1 ⊢ <;> omega
    · have hlt : min e (s + 364) + 1 ≤ e := by omega
      obtain ⟨ihb, ⟨rest, ihhead⟩, ihconsec, ihcount⟩ :=
        ih (min e (s + 364) + 1) e (by omega) (by omega)
      refine ⟨?_, ⟨chunksGo f (min e (s + 364) + 1) e, rfl⟩, ?_, ?_⟩
      · intro c hc
        rcases List.mem_cons.mp hc with hc | hc
        · subst hc
          refine ⟨le_refl s, ?_, ?_⟩
          · show s ≤ min e (s + 364)
            omega
          · show min e (s + 364) ≤ s + 364
            omega
        · obtain ⟨hc1, hc2, hc3⟩ := ihb c hc
          exact ⟨by omega, hc2, hc3⟩
      · rw [ihhead, consecutiveChunks_cons]
        rw [ihhead] at ihconsec
        exact ⟨rfl, ihconsec⟩
      · intro d
        rw [countWindows_cons, ihcount d]
        split_ifs with h1 h2 h2 <;> simp at h1 ⊢ <;> omega

theorem chunks_eq_spec (s e : Int) (h : s ≤ e) :
    (∀ c ∈ chunks s e, s ≤ c.1 ∧ c.1 ≤ c.2 ∧ c.2 ≤ c.1 + 364) ∧
    (∃ rest, chunks s e = (s, min e (s + 364)) :: rest) ∧
    consecutiveChunks (chunks s e) ∧
    (∀ d : Int, countWindows d (chunks s e)
      = if s ≤ d ∧ d ≤ e then 1 else 0) :=
  chunksGo_spec (e + 1 - s).toNat s e h (le_refl _)

/-! Claim theorems. -/

/-- C1: running the pipeline twice with the same target map against the
same working copy produces no further commits: after the first run
appends the computed delta's commits, the delta recomputed from the
resulting working copy is empty. -/
theorem second_run_delta_empty (target : ContributionMap) (cs : List Commit)
    (h : (keysOf target).Nodup) :
    computeDelta target
      (loadExistingCommits
        (cs ++ emitAll (computeDelta target (loadExistingCommits cs)))) = [] := by
  rw [computeDelta, List.filterMap_eq_nil_iff]
  intro p hp
  have hnd : (keysOf (computeDelta target (loadExistingCommits cs))).Nodup :=
    nodup_keys_computeDelta target (loadExistingCommits cs) h
  have hE' := getD_loadExisting_append_emitAll cs
    (computeDelta target (loadExistingCommits cs)) hnd p.1
  have hDelta := getD_computeDelta target (loadExistingCommits cs) h p.1
  have ht : getD target p.1 = p.2 :=
    getD_of_mem_nodup target p.1 p.2 h (by simpa using hp)
  have hcond : ¬ 0 < (p.2 : Int)
      - (getD (loadExistingCommits
          (cs ++ emitAll (computeDelta target (loadExistingCommits cs)))) p.1 : Int) := by
    rw [hE']
    by_cases hlt : (getD (loadExistingCommits cs) p.1 : Int)
        < (getD target p.1 : Int)
    · rw [if_pos hlt] at hDelta
      omega
    · rw [if_neg hlt] at hDelta
      omega
  simp [hcond]

/-- C1 witness: a concrete target map with duplicate-free keys on which
the recomputed delta after one run is empty. -/
theorem second_run_delta_empty_witness :
    (keysOf [((0 : Int), 2)]).Nodup
    ∧ computeDelta [((0 : Int), 2)]
        (loadExistingCommits
          ([] ++ emitAll (computeDelta [((0 : Int), 2)]
            (loadExistingCommits [])))) = [] :=
  ⟨by decide, second_run_delta_empty [((0 : Int), 2)] [] (by decide)⟩

/-- C2: the computed delta contains exactly the target days whose
existing count is below their target count, each mapped to
max 0 (target - existing), and every stored value is strictly
positive. -/
theorem computeDelta_spec (target existing : ContributionMap)
    (h : (keysOf target).Nodup) :
    (∀ d : Int, d ∈ keysOf (computeDelta target existing) ↔
        (d ∈ keysOf target
          ∧ (getD existing d : Int) < (getD target d : Int))) ∧
    (∀ d ∈ keysOf target,
        ((getD (computeDelta target existing) d : Int)
          = max 0 ((getD target d : Int) - (getD existing d : Int)))) ∧
    (∀ p ∈ computeDelta target existing, 0 < p.2) := by
  refine ⟨?_, ?_, ?_⟩
  · intro d
    rw [mem_keys_computeDelta target existing h d]
    constructor
    · intro hlt
      refine ⟨mem_keysOf_of_getD_pos target d (by omega), hlt⟩
    · exact fun hc => hc.2
  · intro d _
    rw [getD_computeDelta target existing h d]
    by_cases hlt : (getD existing d : Int) < (getD target d : Int)
    · rw [if_pos hlt]
      omega
    · rw [if_neg hlt]
      omega
  · intro p hp
    rw [computeDelta] at hp
    obtain ⟨a, _, hfa⟩ := List.mem_filterMap.mp hp
    by_cases hd : 0 < (a.2 : Int) - (getD existing a.1 : Int)
    · rw [if_pos hd] at hfa
      have hpa := Option.some.inj hfa
      rw [← hpa]
      show 0 < ((a.2 : Int) - (getD existing a.1 : Int)).toNat
      omega
    · rw [if_neg hd] at hfa
      exact absurd hfa (by simp)

/-- C2 witness: a concrete target and existing map on which the delta
value equals max 0 of the difference. -/
theorem computeDelta_spec_witness :
    (keysOf [((0 : Int), 2)]).Nodup
    ∧ ((0 : Int) ∈ keysOf [((0 : Int), 2)])
    ∧ ((getD (computeDelta [((0 : Int), 2)] [((0 : Int), 1)]) 0 : Int)
        = max 0 ((getD [((0 : Int), 2)] 0 : Int)
            - (getD [((0 : Int), 1)] 0 : Int))) :=
  ⟨by decide, by decide,
    (computeDelta_spec [((0 : Int), 2)] [((0 : Int), 1)] (by decide)).2.1
      0 (by decide)⟩

/-- C3: for a range with start at most end, the windows computed by the
fetcher are each non-empty and at most 365 days long, each window
after the first begins the day after the previous one ends, and every
day of the range lies in exactly one window while days outside the
range lie in none. -/
theorem fetch_windows_partition_range (s e : Int) (h : s ≤ e) :
    (∀ c ∈ chunks s e, c.1 ≤ c.2 ∧ c.2 ≤ c.1 + 364) ∧
    consecutiveChunks (chunks s e) ∧
    (∀ d : Int, countWindows d (chunks s e)
      = if s ≤ d ∧ d ≤ e then 1 else 0) := by
  obtain ⟨hb, _, hcons, hcount⟩ := chunks_eq_spec s e h
  exact ⟨fun c hc => ⟨(hb c hc).2.1, (hb c hc).2.2⟩, hcons, hcount⟩

/-- C3 witness: a concrete single-day range is covered by exactly one
window. -/
theorem fetch_windows_partition_range_witness :
    ((0 : Int) ≤ 0)
    ∧ countWindows 0 (chunks 0 0) = 1 := by
  refine ⟨by decide, ?_⟩
  have h := (fetch_windows_partition_range 0 0 (by decide)).2.2 0
  simpa using h

/-- C4 counterexample: the second window of the range from 2023-01-01
to 2024-02-04 runs from 2024-01-01 to 2024-02-04 and therefore covers
35 days, not the 36 days the claim states (the range spans 400 days
and the first window covers 365 of them, leaving 35). -/
theorem chunks_400_day_scenario_second_window_not_36 :
    chunks (daysFromCivil 2023 1 1) (daysFromCivil 2024 2 4)
      = [(daysFromCivil 2023 1 1, daysFromCivil 2023 12 31),
         (daysFromCivil 2024 1 1, daysFromCivil 2024 2 4)]
    ∧ daysFromCivil 2024 2 4 + 1 - daysFromCivil 2024 1 1 ≠ 36 := by
  decide

/-- C4 (amended): the 400-day range from 2023-01-01 to 2024-02-04 is
split into exactly two windows, the first covering exactly 365 days
and ending 2023-12-31, the second starting 2024-01-01 and covering the
remaining 35 days. -/
theorem chunks_400_day_scenario :
    chunks (daysFromCivil 2023 1 1) (daysFromCivil 2024 2 4)
      = [(daysFromCivil 2023 1 1, daysFromCivil 2023 12 31),
         (daysFromCivil 2024 1 1, daysFromCivil 2024 2 4)]
    ∧ daysFromCivil 2024 2 4 + 1 - daysFromCivil 2023 1 1 = 400
    ∧ daysFromCivil 2023 12 31 + 1 - daysFromCivil 2023 1 1 = 365
    ∧ daysFromCivil 2024 2 4 + 1 - daysFromCivil 2024 1 1 = 35
    ∧ daysFromCivil 2024 1 1 = daysFromCivil 2023 12 31 + 1 := by
  decide

/-- C5 counterexample: the existing-counts loader buckets by the AUTHOR
date (git log --format=%ad), not the committer date as the claim
states; a commit whose author day 0 differs from its committer day 1
is bucketed under day 0. -/
theorem loader_committer_claim_false :
    loadExistingCommits [Commit.mk (noonUTC 0) (noonUTC 1)]
      ≠ loadExistingByCommitter [Commit.mk (noonUTC 0) (noonUTC 1)] := by
  decide

/-- C5 (amended): the loader tallies per-day counts from the author
date of each commit; since the emitter sets the author and committer
dates of every commit it creates to the same noon-UTC timestamp of the
intended day, every commit created by the emitter for day d is
bucketed under d. -/
theorem loader_buckets_emitter_commits (cs : List Commit) (d : Int)
    (k : Nat) (c : Commit) :
    getD (loadExistingCommits [c]) (formatDay c.authorDate) = 1
    ∧ (mkCommit d).authorDate = (mkCommit d).committerDate
    ∧ getD (loadExistingCommits (cs ++ createCommitsForDay d k)) d
        = getD (loadExistingCommits cs) d + k := by
  refine ⟨?_, rfl, ?_⟩
  · rw [getD_loadExistingCommits]
    show countD (formatDay c.authorDate) [formatDay c.authorDate] = 1
    simp [countD]
  · rw [getD_loadExistingCommits, bucketDays_append, countD_append,
      ← getD_loadExistingCommits, bucketDays_createCommitsForDay,
      countD_replicate, if_pos rfl]

/-- C6: the has-history flag used before the clone-vs-init decision is
the boolean OR of the metadata heuristic and the authoritative
commit-listing check (with 409-conflict and 404 treated as no
history), and the authoritative endpoint is queried exactly when the
heuristic reports false. -/
theorem hasHistory_or_semantics (heuristic : Bool) (resp : CommitsApiResponse)
    (flag queried : Bool)
    (h : resolveHasHistory heuristic resp = Except.ok (flag, queried)) :
    flag = (heuristic || specCommitListingHasHistory resp)
      ∧ queried = !heuristic := by
  cases heuristic with
  | true =>
    simp [resolveHasHistory] at h
    obtain ⟨h1, h2⟩ := h
    subst h1
    subst h2
    exact ⟨rfl, rfl⟩
  | false =>
    cases resp with
    | conflictEmpty =>
      simp [resolveHasHistory, repoHasRemoteCommits, Except.map] at h
      obtain ⟨h1, h2⟩ := h
      subst h1
      subst h2
      exact ⟨rfl, rfl⟩
    | notFound =>
      simp [resolveHasHistory, repoHasRemoteCommits, Except.map] at h
      obtain ⟨h1, h2⟩ := h
      subst h1
      subst h2
      exact ⟨rfl, rfl⟩
    | httpError code =>
      simp [resolveHasHistory, repoHasRemoteCommits, Except.map] at h
    | listing cs =>
      simp [resolveHasHistory, repoHasRemoteCommits, Except.map] at h
      obtain ⟨h1, h2⟩ := h
      subst h2
      cases flag <;> simp_all [specCommitListingHasHistory]

/-- C6 witness: with the heuristic false and a one-commit listing, the
resolved flag is true and the authoritative endpoint was queried. -/
theorem hasHistory_or_semantics_witness :
    resolveHasHistory false (CommitsApiResponse.listing [()])
        = Except.ok (true, true)
    ∧ (true = (false || specCommitListingHasHistory
          (CommitsApiResponse.listing [()]))
        ∧ true = !false) :=
  ⟨rfl, hasHistory_or_semantics false (CommitsApiResponse.listing [()])
    true true rfl⟩

/-- C7: with dry-run enabled the run fetches but checks or creates no
destination repository, prepares no working copy, creates no commits,
pushes nothing, leaves the local and remote commit lists unchanged,
and its output lists every day of the target map with its target
count, in ascending day order. -/
theorem dry_run_effects (yes confirmed : Bool) (target : ContributionMap)
    (localInit remoteInit : List Commit) :
    runMain true yes confirmed target localInit remoteInit
      = ⟨true, false, false, 0, false, localInit, remoteInit,
         if target.isEmpty then [] else dryRunListing target⟩ := by
  by_cases h : target.isEmpty <;> simp [runMain, h]

/-- C8: a run whose fetched target map is empty returns before any
repository operation: the destination repository is neither checked
nor created, no working copy is prepared, no commit is created and no
push occurs. -/
theorem empty_fetch_no_repo_ops (dryRun yes confirmed : Bool)
    (localInit remoteInit : List Commit) :
    runMain dryRun yes confirmed [] localInit remoteInit
      = ⟨true, false, false, 0, false, localInit, remoteInit, []⟩ := by
  simp [runMain]

/-- C9: a run whose computed delta is empty terminates without creating
any commit and without pushing, leaving the local working copy and the
remote contents unchanged. -/
theorem empty_delta_no_writes (dryRun yes confirmed : Bool)
    (target : ContributionMap) (localInit remoteInit : List Commit)
    (h : computeDelta target (loadExistingCommits localInit) = []) :
    (runMain dryRun yes confirmed target localInit remoteInit).commitsCreated = 0
    ∧ (runMain dryRun yes confirmed target localInit remoteInit).pushed = false
    ∧ (runMain dryRun yes confirmed target localInit remoteInit).localCommits
        = localInit
    ∧ (runMain dryRun yes confirmed target localInit remoteInit).remoteCommits
        = remoteInit := by
  cases dryRun <;> by_cases h1 : target.isEmpty <;> simp [runMain, h1, h]

/-- C9 witness: a concrete run whose target day is already mirrored
creates no commits and pushes nothing. -/
theorem empty_delta_no_writes_witness :
    computeDelta [((0 : Int), 1)] (loadExistingCommits [mkCommit 0]) = []
    ∧ (runMain false true true [((0 : Int), 1)] [mkCommit 0] []).pushed
        = false :=
  ⟨by decide,
    (empty_delta_no_writes false true true [((0 : Int), 1)] [mkCommit 0] []
      (by decide)).2.1⟩

/-- C10: when the start date is strictly after the end date the fetch
loop never runs: no window is computed or queried and the returned
contribution map is empty. -/
theorem fetch_empty_when_start_after_end
    (query : Int → Int → ContributionMap) (s e : Int) (h : e < s) :
    fetchContributions query s e = []
    ∧ chunks s e = []
    ∧ (chunks s e).length = 0 := by
  have hc : chunks s e = [] := by
    rw [chunks]
    exact chunksGo_nil (e + 1 - s).toNat s e h
  refine ⟨?_, hc, by rw [hc]; rfl⟩
  rw [fetchContributions, hc]
  rfl

/-- C10 witness: a concrete inverted range fetches nothing. -/
theorem fetch_empty_when_start_after_end_witness :
    ((0 : Int) < 1)
    ∧ fetchContributions (fun _ _ => [((5 : Int), 1)]) 1 0 = [] :=
  ⟨by decide,
    (fetch_empty_when_start_after_end (fun _ _ => [((5 : Int), 1)]) 1 0
      (by decide)).1⟩

end Copiar
